import Mathlib

/-!
# Verification of the Simple-Hopfield-Network repository

Shallow embedding of `src/hopfield_net.py` (class `Hopfield`): a discrete
Hopfield associative memory with Hebbian training (`train_net`) and
asynchronous relaxation (`update_net`).

Modelling conventions:
* Vectors are `List ℤ`, matrices are `List (List ℤ)` (row major), mirroring
  the flattened numpy arrays.  All numeric data the repository feeds through
  the net (binary 0/1 pixels, weights `(2v−1)(2v′−1) ∈ {−1,0,1}`, threshold
  `0`, and the small integer sums of the net-input) is exactly representable,
  so the float64 arithmetic of the source computes exact integers and is
  embedded as `ℤ`.
* The mutable environment of the `update_net` method body is threaded
  explicitly: `self.weight_matrix` and the caller's `input_vector` buffer are
  read-only in the body, `intermediate_out` is the fresh working copy that the
  body writes.
* The unbounded `while not convergence` loop is embedded with explicit fuel;
  `none` means the loop was still running when the fuel ran out.  The random
  `shuffle(node_index)` of pass `k` is modelled by an oracle
  `orders : ℕ → List ℕ` giving the visitation order of each pass; `shuffle`
  always produces a permutation of `range N`, which theorems take as a
  hypothesis where needed.
-/

namespace HopfieldNet

/-- Matrix entry access `W[i][j]` (out-of-range reads default to `0`;
all well-formed uses stay in range). -/
def wEntry (W : List (List ℤ)) (i j : ℕ) : ℤ :=
  (W.getD i []).getD j 0

/-- `np.zeros((n, n))`. -/
def zeroMatrix (n : ℕ) : List (List ℤ) :=
  (List.range n).map (fun _ => (List.range n).map (fun _ => 0))

/-- The `Hopfield` object: fields set by `__init__`. -/
structure Hopfield where
  neuron_num : ℕ
  threshold : ℤ
  weight_matrix : List (List ℤ)
  deriving DecidableEq

/-- `Hopfield.__init__(neuron_num, threshold)`: stores the two parameters and
allocates `np.zeros((neuron_num, neuron_num))`.  The size parameter is an
arbitrary integer at the Python call site; `np.zeros` raises a `ValueError`
for a negative dimension (embedded as `none`) and otherwise allocates the
matrix — there is no size check in `__init__` itself. -/
def hopfieldInit (neuron_num : ℤ) (threshold : ℤ) : Option Hopfield :=
  if neuron_num < 0 then none
  else some ⟨neuron_num.toNat, threshold, zeroMatrix neuron_num.toNat⟩

/-- `Hopfield.train_net(input_vector)` for a pattern of the shape the
repository uses (`(1,1,N)` with `N = neuron_num`): numpy evaluates
`(2*v - 1) * (2*v.T - 1)` to the outer product, `np.sum(..., axis=1)`
collapses the singleton axis, and `(1 - np.eye(N)) * ...` zeroes the
diagonal, so entry `(i,j)` of the replaced matrix is
`(1 - δ_ij) · (2·v_i − 1) · (2·v_j − 1)`. -/
def Hopfield.train_net (h : Hopfield) (input_vector : List ℤ) : Hopfield :=
  { h with weight_matrix :=
      (List.range h.neuron_num).map (fun i =>
        (List.range h.neuron_num).map (fun j =>
          (if i = j then 0 else 1) *
            ((2 * input_vector.getD i 0 - 1) * (2 * input_vector.getD j 0 - 1)))) }

/-- `Hopfield.train_net` including numpy's broadcasting behaviour when the
pattern (shape `(1,1,L)`) does not match the configured size `N`:
* `L = N`: the normal case above;
* `L = 1`, any `N`: the `(1,1)` outer-product sum broadcasts against
  `(1 - np.eye(N))`, silently replacing the matrix with
  `(1 - δ_ij) · (2·v_0 − 1)²`;
* `N = 1`, `L ≠ 1`: the `(1,1)` matrix `1 - np.eye(1) = [[0]]` broadcasts
  against the `(L,L)` outer product, silently replacing the matrix with an
  `L×L` zero matrix;
* otherwise numpy raises a broadcasting `ValueError` mid-computation
  (embedded as `none`).
No branch raises anything like a `DimensionMismatch`, and no branch checks
lengths before computing. -/
def Hopfield.train_net_shapes (h : Hopfield) (input_vector : List ℤ) :
    Option Hopfield :=
  let L := input_vector.length
  let N := h.neuron_num
  if L = N then some (h.train_net input_vector)
  else if L = 1 then
    some { h with weight_matrix :=
      (List.range N).map (fun i =>
        (List.range N).map (fun j =>
          (if i = j then 0 else 1) *
            ((2 * input_vector.getD 0 0 - 1) * (2 * input_vector.getD 0 0 - 1)))) }
  else if N = 1 then
    some { h with weight_matrix :=
      (List.range L).map (fun _ => (List.range L).map (fun _ => 0)) }
  else none

/-- The mutable environment of the `update_net` method body:
`self.weight_matrix` (read), the caller's `input_vector` buffer (read), and
the working copy `intermediate_out` (read and written). -/
structure Env where
  weight_matrix : List (List ℤ)
  input_vector : List ℤ
  intermediate_out : List ℤ
  deriving DecidableEq

/-- The net input of `node`:
`input_vector.reshape(-1)[node] + np.sum(weight_matrix[node] * intermediate_out)`,
i.e. the original cue value at `node` plus `Σ_{j<N} W[node][j] · state[j]`. -/
def netVal (N : ℕ) (e : Env) (node : ℕ) : ℤ :=
  e.input_vector.getD node 0 +
    ((List.range N).map
      (fun j => wEntry e.weight_matrix node j * e.intermediate_out.getD j 0)).sum

/-- One node update of the inner `for node in node_index` loop body:
if `val ≥ threshold` and the node is not already `1`, set it to `1` and flag
the pass as changed; else if `val < threshold` and the node is not already
`0`, set it to `0` and flag the pass as changed; otherwise leave everything
alone.  Returns the updated environment and the `changed`-flag contribution. -/
def updateNode (N : ℕ) (threshold : ℤ) (e : Env) (node : ℕ) : Env × Bool :=
  let val := netVal N e node
  if threshold ≤ val then
    if e.intermediate_out.getD node 0 ≠ 1 then
      ({ e with intermediate_out := e.intermediate_out.set node 1 }, true)
    else (e, false)
  else
    if e.intermediate_out.getD node 0 ≠ 0 then
      ({ e with intermediate_out := e.intermediate_out.set node 0 }, true)
    else (e, false)

/-- The body of the `for node in node_index` loop, acting on the pair of the
environment and the `changed` flag. -/
def passStep (N : ℕ) (threshold : ℤ) (acc : Env × Bool) (node : ℕ) : Env × Bool :=
  let r := updateNode N threshold acc.1 node
  (r.1, acc.2 || r.2)

/-- One full pass of the `while` loop body: `changed = False`, then the
`for node in node_index` loop over the (shuffled) visitation order,
accumulating the `changed` flag. -/
def runPass (N : ℕ) (threshold : ℤ) (order : List ℕ) (e : Env) : Env × Bool :=
  order.foldl (passStep N threshold) (e, false)

/-- The `while not convergence` loop with explicit fuel: pass `k` visits the
nodes in order `orders k`; if the pass changed nothing the loop exits and the
settled `intermediate_out` is returned, together with the final environment.
`none` in the first component means the fuel ran out with the loop still
running. -/
def updateLoop (N : ℕ) (threshold : ℤ) (orders : ℕ → List ℕ) :
    ℕ → ℕ → Env → Option (List ℤ) × Env
  | 0, _, e => (none, e)
  | fuel + 1, k, e =>
    let r := runPass N threshold (orders k) e
    if r.2 then updateLoop N threshold orders fuel (k + 1) r.1
    else (some r.1.intermediate_out, r.1)

/-- `Hopfield.update_net(input_vector)`: `intermediate_out` starts as a copy
of the (flattened) cue, then the node-update loop runs until a pass changes
nothing.  Returns the result of the call together with the final state of
the environment (the weight matrix and the caller's cue buffer as the method
leaves them). -/
def Hopfield.update_net (h : Hopfield) (input_vector : List ℤ)
    (orders : ℕ → List ℕ) (fuel : ℕ) : Option (List ℤ) × Env :=
  updateLoop h.neuron_num h.threshold orders fuel 0
    ⟨h.weight_matrix, input_vector, input_vector⟩

/-- A sequence of `train_net` calls on one store. -/
def trainSeq (h : Hopfield) (patterns : List (List ℤ)) : Hopfield :=
  patterns.foldl Hopfield.train_net h

/-- A vector is binary when every entry is `0` or `1`. -/
def isBinary (v : List ℤ) : Prop := ∀ x ∈ v, x = 0 ∨ x = 1

instance (v : List ℤ) : Decidable (isBinary v) := by
  unfold isBinary; infer_instance

/-- The two weight-matrix invariants: symmetry and zero diagonal. -/
def symmZeroDiag (W : List (List ℤ)) : Prop :=
  (∀ i j, wEntry W i j = wEntry W j i) ∧ (∀ i, wEntry W i i = 0)

/-! ### Lyapunov measure for termination

The termination argument for the relaxation loop uses the usual Hopfield
energy function, extended with the cue-bias term of this implementation and
scaled by `2` so that everything stays in `ℤ`, plus `−Σ s_i` as a
lexicographic tie-break (a node switching on at net input exactly equal to
the threshold keeps the energy constant but increases the number of ones).
Every node update that changes the state strictly decreases `mu`. -/

/-- Function view of a vector: entry `i`, out-of-range entries read `0`. -/
def vecFun (v : List ℤ) : ℕ → ℤ := fun i => v.getD i 0

/-- The quadratic form `Σ_{i<N} Σ_{j<N} W[i][j]·s_i·s_j`. -/
def quadSum (W : List (List ℤ)) (N : ℕ) (s : ℕ → ℤ) : ℤ :=
  ∑ i in Finset.range N, ∑ j in Finset.range N, wEntry W i j * s i * s j

/-- Twice the Lyapunov energy of a state `s` for weights `W`, cue bias `c`
and threshold `t`. -/
def energy (N : ℕ) (t : ℤ) (W : List (List ℤ)) (c : ℕ → ℤ) (s : ℕ → ℤ) : ℤ :=
  -(quadSum W N s) - 2 * (∑ i in Finset.range N, c i * s i)
    + 2 * t * (∑ i in Finset.range N, s i)

/-- The termination measure: energy with the number-of-ones tie-break. -/
def mu (N : ℕ) (t : ℤ) (W : List (List ℤ)) (c : ℕ → ℤ) (s : ℕ → ℤ) : ℤ :=
  energy N t W c s - ∑ i in Finset.range N, s i

/-- The termination measure of a relaxation environment. -/
def muEnv (N : ℕ) (t : ℤ) (e : Env) : ℤ :=
  mu N t e.weight_matrix (vecFun e.input_vector) (vecFun e.intermediate_out)

/-- A lower bound for `mu` over binary states. -/
def muBound (N : ℕ) (t : ℤ) (W : List (List ℤ)) (c : ℕ → ℤ) : ℤ :=
  -(∑ i in Finset.range N, ∑ j in Finset.range N, |wEntry W i j|)
    - 2 * (∑ i in Finset.range N, |c i|) - 2 * |t| * N - N

/-- The invariant of the relaxation environment used by the termination
argument: a binary working state of length `N` over a weight matrix that is
symmetric with zero diagonal on the visited index range. -/
def goodEnv (N : ℕ) (e : Env) : Prop :=
  isBinary e.intermediate_out ∧ e.intermediate_out.length = N ∧
    (∀ a ∈ Finset.range N, ∀ b ∈ Finset.range N,
      wEntry e.weight_matrix a b = wEntry e.weight_matrix b a) ∧
    ∀ a ∈ Finset.range N, wEntry e.weight_matrix a a = 0

/-! ## Basic list-access lemmas -/

theorem getD_set_self (l : List ℤ) (i : ℕ) (b d : ℤ) (h : i < l.length) :
    (l.set i b).getD i d = b := by
  induction l generalizing i with
  | nil => simp at h
  | cons a t ih =>
    cases i with
    | zero => rfl
    | succ n => simpa using ih n (by simpa using h)

theorem getD_set_ne (l : List ℤ) {i j : ℕ} (b d : ℤ) (h : j ≠ i) :
    (l.set i b).getD j d = l.getD j d := by
  induction l generalizing i j with
  | nil => simp
  | cons a t ih =>
    cases i with
    | zero =>
      cases j with
      | zero => exact absurd rfl h
      | succ m => rfl
    | succ n =>
      cases j with
      | zero => rfl
      | succ m => simpa using ih (fun hh => h (by rw [hh]))

theorem getD_map_range {α : Type} (N i : ℕ) (f : ℕ → α) (d : α) (h : i < N) :
    ((List.range N).map f).getD i d = f i := by
  rw [List.getD_eq_getElem _ _ (by simpa using h)]
  simp

theorem getD_map_range_ge {α : Type} (N i : ℕ) (f : ℕ → α) (d : α) (h : N ≤ i) :
    ((List.range N).map f).getD i d = d :=
  List.getD_eq_default _ _ (by simpa using h)

/-! ## Frame lemmas: the relaxation loop never writes `self.weight_matrix`
nor the caller's `input_vector` buffer -/

theorem updateNode_frame (N : ℕ) (t : ℤ) (e : Env) (node : ℕ) :
    (updateNode N t e node).1.weight_matrix = e.weight_matrix ∧
      (updateNode N t e node).1.input_vector = e.input_vector := by
  unfold updateNode
  dsimp only
  split <;> split <;> exact ⟨rfl, rfl⟩

theorem foldl_passStep_frame (N : ℕ) (t : ℤ) (order : List ℕ) (p : Env × Bool) :
    (order.foldl (passStep N t) p).1.weight_matrix = p.1.weight_matrix ∧
      (order.foldl (passStep N t) p).1.input_vector = p.1.input_vector := by
  induction order generalizing p with
  | nil => exact ⟨rfl, rfl⟩
  | cons node rest ih =>
    have hstep := updateNode_frame N t p.1 node
    have := ih (passStep N t p node)
    simp only [List.foldl_cons] at *
    exact ⟨this.1.trans hstep.1, this.2.trans hstep.2⟩

theorem runPass_frame (N : ℕ) (t : ℤ) (order : List ℕ) (e : Env) :
    (runPass N t order e).1.weight_matrix = e.weight_matrix ∧
      (runPass N t order e).1.input_vector = e.input_vector :=
  foldl_passStep_frame N t order (e, false)

theorem updateLoop_frame (N : ℕ) (t : ℤ) (orders : ℕ → List ℕ) :
    ∀ (fuel k : ℕ) (e : Env),
      (updateLoop N t orders fuel k e).2.weight_matrix = e.weight_matrix ∧
        (updateLoop N t orders fuel k e).2.input_vector = e.input_vector := by
  intro fuel
  induction fuel with
  | zero => intro k e; exact ⟨rfl, rfl⟩
  | succ f ih =>
    intro k e
    have hp := runPass_frame N t (orders k) e
    unfold updateLoop
    dsimp only
    split
    · exact ⟨(ih (k + 1) _).1.trans hp.1, (ih (k + 1) _).2.trans hp.2⟩
    · exact hp

/-! ## The trained weight matrix -/

theorem wEntry_train (h : Hopfield) (v : List ℤ) (i j : ℕ)
    (hi : i < h.neuron_num) (hj : j < h.neuron_num) :
    wEntry (h.train_net v).weight_matrix i j =
      (if i = j then 0 else 1) *
        ((2 * v.getD i 0 - 1) * (2 * v.getD j 0 - 1)) := by
  unfold Hopfield.train_net wEntry
  dsimp only
  rw [getD_map_range _ _ _ _ hi, getD_map_range _ _ _ _ hj]

theorem wEntry_train_out_row (h : Hopfield) (v : List ℤ) (i j : ℕ)
    (hi : h.neuron_num ≤ i) :
    wEntry (h.train_net v).weight_matrix i j = 0 := by
  unfold Hopfield.train_net wEntry
  dsimp only
  rw [getD_map_range_ge _ _ _ _ hi]
  rfl

theorem wEntry_train_out_col (h : Hopfield) (v : List ℤ) (i j : ℕ)
    (hi : i < h.neuron_num) (hj : h.neuron_num ≤ j) :
    wEntry (h.train_net v).weight_matrix i j = 0 := by
  unfold Hopfield.train_net wEntry
  dsimp only
  rw [getD_map_range _ _ _ _ hi, getD_map_range_ge _ _ _ _ hj]

theorem wEntry_zeroMatrix (n : ℕ) (i j : ℕ) : wEntry (zeroMatrix n) i j = 0 := by
  unfold zeroMatrix wEntry
  rcases lt_or_le i n with hi | hi
  · rw [getD_map_range _ _ _ _ hi]
    rcases lt_or_le j n with hj | hj
    · rw [getD_map_range _ _ _ _ hj]
    · rw [getD_map_range_ge _ _ _ _ hj]
  · rw [getD_map_range_ge _ _ _ _ hi]
    rfl

theorem zeroMatrix_symmZeroDiag (n : ℕ) : symmZeroDiag (zeroMatrix n) := by
  constructor
  · intro i j; rw [wEntry_zeroMatrix, wEntry_zeroMatrix]
  · intro i; rw [wEntry_zeroMatrix]

theorem train_symmZeroDiag (h : Hopfield) (v : List ℤ) :
    symmZeroDiag (h.train_net v).weight_matrix := by
  constructor
  · intro i j
    rcases lt_or_le i h.neuron_num with hi | hi
    · rcases lt_or_le j h.neuron_num with hj | hj
      · rw [wEntry_train _ _ _ _ hi hj, wEntry_train _ _ _ _ hj hi]
        rcases eq_or_ne i j with hij | hij
        · simp [hij]
        · rw [if_neg hij, if_neg (Ne.symm hij)]
          ring
      · rw [wEntry_train_out_col _ _ _ _ hi hj, wEntry_train_out_row _ _ _ _ hj]
    · rcases lt_or_le j h.neuron_num with hj | hj
      · rw [wEntry_train_out_row _ _ _ _ hi, wEntry_train_out_col _ _ _ _ hj hi]
      · rw [wEntry_train_out_row _ _ _ _ hi, wEntry_train_out_row _ _ _ _ hj]
  · intro i
    rcases lt_or_le i h.neuron_num with hi | hi
    · rw [wEntry_train _ _ _ _ hi hi]
      simp
    · exact wEntry_train_out_row _ _ _ _ hi

theorem trainSeq_symmZeroDiag (h : Hopfield) (ps : List (List ℤ))
    (hh : symmZeroDiag h.weight_matrix) :
    symmZeroDiag (trainSeq h ps).weight_matrix := by
  induction ps generalizing h with
  | nil => exact hh
  | cons p rest ih => exact ih (h.train_net p) (train_symmZeroDiag h p)

/-! ## Claims about training -/

/-- C1: For every pattern `v` of length `N` presented to `train_net` as a
single training pattern, the resulting weight matrix satisfies
`W[i][j] = (2·v_i − 1)·(2·v_j − 1)` for all `i ≠ j` and `W[i][i] = 0`. -/
theorem claim_C1_single_pattern_outer_product (h : Hopfield) (v : List ℤ)
    (_hv : v.length = h.neuron_num) (i j : ℕ)
    (hi : i < h.neuron_num) (hj : j < h.neuron_num) :
    (i ≠ j → wEntry (h.train_net v).weight_matrix i j =
        (2 * v.getD i 0 - 1) * (2 * v.getD j 0 - 1)) ∧
      wEntry (h.train_net v).weight_matrix i i = 0 := by
  constructor
  · intro hij
    rw [wEntry_train _ _ _ _ hi hj, if_neg hij, one_mul]
  · rw [wEntry_train _ _ _ _ hi hi]
    simp

/-- Witness for C1 at the repository's own example pattern `[1,1,1,0]`
(size-4 net): `W[0][3] = (2·1−1)(2·0−1) = −1` and `W[0][0] = 0`. -/
theorem claim_C1_witness :
    wEntry ((Hopfield.mk 4 0 (zeroMatrix 4)).train_net [1, 1, 1, 0]).weight_matrix 0 3 = -1 ∧
      wEntry ((Hopfield.mk 4 0 (zeroMatrix 4)).train_net [1, 1, 1, 0]).weight_matrix 0 0 = 0 := by
  have hthm := claim_C1_single_pattern_outer_product (Hopfield.mk 4 0 (zeroMatrix 4))
    [1, 1, 1, 0] (by decide) 0 3 (by decide) (by decide)
  exact ⟨(hthm.1 (by decide)).trans (by decide), hthm.2⟩

/-- C3: every freshly constructed store, and every store after any sequence
of `train_net` calls with patterns of any content, has a symmetric,
zero-diagonal weight matrix. -/
theorem claim_C3_symmetry_zero_diag_invariant (n : ℕ) (t : ℤ) (ps : List (List ℤ)) :
    (∀ i j, wEntry (trainSeq (Hopfield.mk n t (zeroMatrix n)) ps).weight_matrix i j =
        wEntry (trainSeq (Hopfield.mk n t (zeroMatrix n)) ps).weight_matrix j i) ∧
      ∀ i, wEntry (trainSeq (Hopfield.mk n t (zeroMatrix n)) ps).weight_matrix i i = 0 :=
  trainSeq_symmZeroDiag (Hopfield.mk n t (zeroMatrix n)) ps (zeroMatrix_symmZeroDiag n)

/-- C8: training twice on one store gives the same weight matrix as training
only on the second pattern on a fresh store of the same size: `train_net`
replaces the matrix rather than accumulating. -/
theorem claim_C8_train_replaces (n : ℕ) (t : ℤ) (W : List (List ℤ))
    (p1 p2 : List ℤ) (_h1 : p1.length = n) (_h2 : p2.length = n) :
    (((Hopfield.mk n t W).train_net p1).train_net p2).weight_matrix =
      ((Hopfield.mk n t (zeroMatrix n)).train_net p2).weight_matrix := rfl

/-- Witness for C8 with a size-2 store, `p1 = [1,0]`, `p2 = [0,1]`. -/
theorem claim_C8_witness :
    (((Hopfield.mk 2 0 (zeroMatrix 2)).train_net [1, 0]).train_net [0, 1]).weight_matrix =
      ((Hopfield.mk 2 0 (zeroMatrix 2)).train_net [0, 1]).weight_matrix :=
  claim_C8_train_replaces 2 0 (zeroMatrix 2) [1, 0] [0, 1] (by decide) (by decide)

/-! ## Claims about the relaxation update rule -/

/-- C2: a node update computes the net input
`net_i = cue[i] + Σ_j W[i][j]·state[j]` — the bias term reads the original
`input_vector`, not the working state — and sets the node to `1` exactly when
`net_i ≥ threshold`, to `0` otherwise, leaving every other node untouched. -/
theorem claim_C2_net_input_and_activation (N : ℕ) (t : ℤ) (e : Env) (node : ℕ)
    (hn : node < e.intermediate_out.length) :
    (updateNode N t e node).1.intermediate_out.getD node 0 =
      (if t ≤ e.input_vector.getD node 0 +
          ((List.range N).map
            (fun j => wEntry e.weight_matrix node j * e.intermediate_out.getD j 0)).sum
        then 1 else 0) ∧
      ∀ j, j ≠ node →
        (updateNode N t e node).1.intermediate_out.getD j 0 =
          e.intermediate_out.getD j 0 := by
  have hnet : netVal N e node =
      e.input_vector.getD node 0 +
        ((List.range N).map
          (fun j => wEntry e.weight_matrix node j * e.intermediate_out.getD j 0)).sum := rfl
  rw [← hnet]
  unfold updateNode
  dsimp only
  constructor
  · split
    · split
      · exact getD_set_self _ _ _ _ hn
      · rename_i hcur
        simpa using hcur
    · split
      · exact getD_set_self _ _ _ _ hn
      · rename_i hcur
        simpa using hcur
  · intro j hj
    split
    · split
      · exact getD_set_ne _ _ _ hj
      · rfl
    · split
      · exact getD_set_ne _ _ _ hj
      · rfl

/-- Witness for C2 on the repository's size-4 example mid-relaxation:
node `2` of a length-4 state. -/
theorem claim_C2_witness :
    (updateNode 4 0 ⟨zeroMatrix 4, [0, 0, 1, 0], [0, 0, 1, 0]⟩ 2).1.intermediate_out.getD 2 0 =
      (if (0 : ℤ) ≤ ([0, 0, 1, 0] : List ℤ).getD 2 0 +
          ((List.range 4).map
            (fun j => wEntry (zeroMatrix 4) 2 j * ([0, 0, 1, 0] : List ℤ).getD j 0)).sum
        then 1 else 0) ∧
      ∀ j, j ≠ 2 →
        (updateNode 4 0 ⟨zeroMatrix 4, [0, 0, 1, 0], [0, 0, 1, 0]⟩ 2).1.intermediate_out.getD j 0 =
          ([0, 0, 1, 0] : List ℤ).getD j 0 :=
  claim_C2_net_input_and_activation 4 0 ⟨zeroMatrix 4, [0, 0, 1, 0], [0, 0, 1, 0]⟩ 2 (by decide)

/-! ## Frame claims -/

/-- C9: a `update_net` call leaves `self.weight_matrix` exactly unchanged:
relaxation never mutates the stored weights. -/
theorem claim_C9_recall_never_mutates_weights (h : Hopfield) (cue : List ℤ)
    (orders : ℕ → List ℕ) (fuel : ℕ) :
    (h.update_net cue orders fuel).2.weight_matrix = h.weight_matrix :=
  (updateLoop_frame h.neuron_num h.threshold orders fuel 0
    ⟨h.weight_matrix, cue, cue⟩).1

/-- C10: a `update_net` call leaves the caller's cue buffer exactly
unchanged: the relaxation writes only the fresh working copy
`intermediate_out` and merely reads the original cue for the bias term. -/
theorem claim_C10_recall_leaves_cue_unchanged (h : Hopfield) (cue : List ℤ)
    (orders : ℕ → List ℕ) (fuel : ℕ) :
    (h.update_net cue orders fuel).2.input_vector = cue :=
  (updateLoop_frame h.neuron_num h.threshold orders fuel 0
    ⟨h.weight_matrix, cue, cue⟩).2

/-! ## Error-handling claims -/

/-- C7 counterexample: constructing with size `0 ≤ 0` does not fail — there
is no `InvalidSize` check anywhere in `__init__`; `np.zeros((0,0))` happily
allocates an empty matrix. -/
theorem claim_C7_counterexample : hopfieldInit 0 7 = some ⟨0, 7, []⟩ := by decide

/-- C7 amended: construction never raises an `InvalidSize` error; for every
`n ≥ 0` — including `n = 0` — it succeeds and stores an `n×n` zero matrix,
and for `n < 0` it fails only because `np.zeros` rejects a negative
dimension with a `ValueError`. -/
theorem claim_C7_amended (n t : ℤ) :
    (n < 0 → hopfieldInit n t = none) ∧
      (0 ≤ n → hopfieldInit n t = some ⟨n.toNat, t, zeroMatrix n.toNat⟩) := by
  constructor
  · intro hn
    unfold hopfieldInit
    rw [if_pos hn]
  · intro hn
    unfold hopfieldInit
    rw [if_neg (not_lt.mpr hn)]

/-- Witness for C7 amended: `n = −1` fails, `n = 2` allocates `2×2` zeros. -/
theorem claim_C7_witness :
    hopfieldInit (-1) 0 = none ∧ hopfieldInit 2 5 = some ⟨2, 5, [[0, 0], [0, 0]]⟩ := by
  refine ⟨(claim_C7_amended (-1) 0).1 (by decide), ?_⟩
  rw [(claim_C7_amended 2 5).2 (by decide)]
  decide

/-- C6 counterexample: `train_net` on a size-4 store with the length-1
pattern `[1]` neither raises a `DimensionMismatch` nor leaves the matrix
unmodified: numpy broadcasting silently replaces the weight matrix. -/
theorem claim_C6_counterexample :
    (Hopfield.mk 4 0 (zeroMatrix 4)).train_net_shapes [1] =
      some ⟨4, 0, [[0, 1, 1, 1], [1, 0, 1, 1], [1, 1, 0, 1], [1, 1, 1, 0]]⟩ := by
  decide

/-- C6 amended: neither `train_net` nor `update_net` performs any dimension
validation and no `DimensionMismatch` error exists.  For `train_net` with a
pattern of length `L ≠ N`: when `L = 1` (or `N = 1`) numpy broadcasting
silently replaces the weight matrix, and otherwise a numpy broadcasting
`ValueError` is raised mid-computation. -/
theorem claim_C6_amended (h : Hopfield) (v : List ℤ)
    (hmis : v.length ≠ h.neuron_num) :
    (v.length = 1 → h.train_net_shapes v =
        some { h with weight_matrix :=
          (List.range h.neuron_num).map (fun i =>
            (List.range h.neuron_num).map (fun j =>
              (if i = j then 0 else 1) *
                ((2 * v.getD 0 0 - 1) * (2 * v.getD 0 0 - 1)))) }) ∧
      (h.neuron_num = 1 → v.length ≠ 1 → h.train_net_shapes v =
        some { h with weight_matrix :=
          (List.range v.length).map (fun _ =>
            (List.range v.length).map (fun _ => 0)) }) ∧
      (v.length ≠ 1 → h.neuron_num ≠ 1 → h.train_net_shapes v = none) := by
  refine ⟨?_, ?_, ?_⟩
  · intro hL
    unfold Hopfield.train_net_shapes
    rw [if_neg hmis, if_pos hL]
  · intro hN hL
    unfold Hopfield.train_net_shapes
    rw [if_neg hmis, if_neg hL, if_pos hN]
  · intro hL hN
    unfold Hopfield.train_net_shapes
    rw [if_neg hmis, if_neg hL, if_neg hN]

/-- Witness for C6 amended: a size-4 store with the length-2 pattern
`[1, 1]` hits the broadcasting `ValueError` case. -/
theorem claim_C6_witness :
    (Hopfield.mk 4 0 (zeroMatrix 4)).train_net_shapes [1, 1] = none :=
  ((claim_C6_amended (Hopfield.mk 4 0 (zeroMatrix 4)) [1, 1] (by decide)).2.2
    (by decide) (by decide))

/-- C5 counterexample: train a size-1 store on the binary pattern `[0]` and
recall with cue `[0]`: the relaxation converges to `[1]`, not to the trained
pattern — the all-zeros pattern is not a fixed point (its net input is
`0 ≥ 0`, so the node switches on). -/
theorem claim_C5_counterexample :
    (((Hopfield.mk 1 0 (zeroMatrix 1)).train_net [0]).update_net [0]
        (fun _ => [0]) 2).1 = some [1] := by
  decide

/-! ## Termination of the relaxation loop: energy descent -/

theorem listSum_eq_finsetSum (N : ℕ) (f : ℕ → ℤ) :
    ((List.range N).map f).sum = ∑ i in Finset.range N, f i := by
  induction N with
  | zero => simp
  | succ n ih =>
    rw [List.range_succ, List.map_append, List.sum_append, Finset.sum_range_succ, ih]
    simp

theorem vecFun_binary (st : List ℤ) (hb : isBinary st) (i : ℕ) :
    vecFun st i = 0 ∨ vecFun st i = 1 := by
  unfold vecFun
  rcases lt_or_le i st.length with hi | hi
  · rw [List.getD_eq_getElem st 0 hi]
    exact hb _ (List.getElem_mem hi)
  · exact Or.inl (List.getD_eq_default st 0 hi)

theorem vecFun_set (st : List ℤ) (i : ℕ) (b : ℤ) (h : i < st.length) :
    vecFun (st.set i b) = Function.update (vecFun st) i b := by
  funext j
  rcases eq_or_ne j i with rfl | hj
  · rw [Function.update_same]
    exact getD_set_self _ _ _ _ h
  · rw [Function.update_noteq hj]
    exact getD_set_ne _ _ _ hj

theorem sum_mul_update (N i : ℕ) (hi : i < N) (g s : ℕ → ℤ) (b : ℤ) :
    ∑ j in Finset.range N, g j * Function.update s i b j
      = (∑ j in Finset.range N, g j * s j) + g i * (b - s i) := by
  have hmem : i ∈ Finset.range N := Finset.mem_range.mpr hi
  have hfun : ∀ j, g j * Function.update s i b j
      = Function.update (fun j => g j * s j) i (g i * b) j := by
    intro j
    rcases eq_or_ne j i with rfl | hj
    · rw [Function.update_same, Function.update_same]
    · rw [Function.update_noteq hj, Function.update_noteq hj]
  rw [Finset.sum_congr rfl (fun j _ => hfun j),
    Finset.sum_update_of_mem hmem, ← Finset.erase_eq]
  have h2 : (∑ j in (Finset.range N).erase i, g j * s j) + g i * s i
      = ∑ j in Finset.range N, g j * s j :=
    Finset.sum_erase_add (Finset.range N) (fun j => g j * s j) hmem
  have h3 : (∑ j in (Finset.range N).erase i, g j * s j)
      = (∑ j in Finset.range N, g j * s j) - g i * s i := by linarith
  rw [h3]
  ring

theorem sum_update (N i : ℕ) (hi : i < N) (s : ℕ → ℤ) (b : ℤ) :
    ∑ j in Finset.range N, Function.update s i b j
      = (∑ j in Finset.range N, s j) + (b - s i) := by
  have := sum_mul_update N i hi (fun _ => 1) s b
  simpa using this

theorem quadSum_update (W : List (List ℤ)) (N i : ℕ) (hi : i < N)
    (hsym : ∀ a ∈ Finset.range N, ∀ b ∈ Finset.range N, wEntry W a b = wEntry W b a)
    (hdiag : wEntry W i i = 0) (s : ℕ → ℤ) (b : ℤ) :
    quadSum W N (Function.update s i b)
      = quadSum W N s
        + 2 * (b - s i) * (∑ k in Finset.range N, wEntry W i k * s k) := by
  have hmem : i ∈ Finset.range N := Finset.mem_range.mpr hi
  set s' := Function.update s i b with hs'
  set d := b - s i with hd
  have hinner : ∀ j, (∑ k in Finset.range N, wEntry W j k * s' j * s' k)
      = s' j * ((∑ k in Finset.range N, wEntry W j k * s k) + wEntry W j i * d) := by
    intro j
    have h1 : (∑ k in Finset.range N, wEntry W j k * s' j * s' k)
        = ∑ k in Finset.range N, (s' j * wEntry W j k) * s' k := by
      refine Finset.sum_congr rfl (fun k _ => by ring)
    rw [h1, sum_mul_update N i hi (fun k => s' j * wEntry W j k) s b]
    have h2 : (∑ k in Finset.range N, s' j * wEntry W j k * s k)
        = s' j * ∑ k in Finset.range N, wEntry W j k * s k := by
      rw [Finset.mul_sum]
      exact Finset.sum_congr rfl (fun k _ => by ring)
    rw [h2, ← hd]
    ring
  have hQ : quadSum W N s' = ∑ j in Finset.range N,
      s' j * ((∑ k in Finset.range N, wEntry W j k * s k) + wEntry W j i * d) := by
    unfold quadSum
    exact Finset.sum_congr rfl (fun j _ => hinner j)
  have hsplit : quadSum W N s'
      = (∑ j in Finset.range N, (∑ k in Finset.range N, wEntry W j k * s k) * s' j)
        + d * (∑ j in Finset.range N, wEntry W j i * s' j) := by
    rw [hQ, Finset.mul_sum, ← Finset.sum_add_distrib]
    exact Finset.sum_congr rfl (fun j _ => by ring)
  have hA : (∑ j in Finset.range N, (∑ k in Finset.range N, wEntry W j k * s k) * s' j)
      = (∑ j in Finset.range N, (∑ k in Finset.range N, wEntry W j k * s k) * s j)
        + (∑ k in Finset.range N, wEntry W i k * s k) * d := by
    rw [hs', sum_mul_update N i hi (fun j => ∑ k in Finset.range N, wEntry W j k * s k) s b, hd]
  have hB : (∑ j in Finset.range N, wEntry W j i * s' j)
      = ∑ k in Finset.range N, wEntry W i k * s k := by
    rw [hs', sum_mul_update N i hi (fun j => wEntry W j i) s b, hdiag]
    have : (∑ j in Finset.range N, wEntry W j i * s j)
        = ∑ j in Finset.range N, wEntry W i j * s j := by
      refine Finset.sum_congr rfl (fun j hj => ?_)
      rw [hsym j hj i hmem]
    rw [this]
    ring
  have hQs : quadSum W N s = ∑ j in Finset.range N,
      (∑ k in Finset.range N, wEntry W j k * s k) * s j := by
    unfold quadSum
    refine Finset.sum_congr rfl (fun j _ => ?_)
    rw [Finset.sum_mul]
    exact Finset.sum_congr rfl (fun k _ => by ring)
  rw [hsplit, hA, hB, ← hQs]
  ring

theorem mu_update (W : List (List ℤ)) (N : ℕ) (t : ℤ) (c : ℕ → ℤ) (i : ℕ) (hi : i < N)
    (hsym : ∀ a ∈ Finset.range N, ∀ b ∈ Finset.range N, wEntry W a b = wEntry W b a)
    (hdiag : wEntry W i i = 0) (s : ℕ → ℤ) (b : ℤ) :
    mu N t W c (Function.update s i b)
      = mu N t W c s
        - 2 * (b - s i) * ((c i + ∑ k in Finset.range N, wEntry W i k * s k) - t)
        - (b - s i) := by
  unfold mu energy
  rw [quadSum_update W N i hi hsym hdiag s b,
    sum_mul_update N i hi c s b, sum_update N i hi s b]
  ring

theorem netVal_eq (N : ℕ) (e : Env) (node : ℕ) :
    netVal N e node = vecFun e.input_vector node +
      ∑ k in Finset.range N, wEntry e.weight_matrix node k * vecFun e.intermediate_out k := by
  unfold netVal vecFun
  rw [listSum_eq_finsetSum]

theorem updateNode_cases (N : ℕ) (t : ℤ) (e : Env) (node : ℕ) :
    (updateNode N t e node = (e, false) ∧
        (t ≤ netVal N e node → e.intermediate_out.getD node 0 = 1) ∧
        (¬ t ≤ netVal N e node → e.intermediate_out.getD node 0 = 0)) ∨
      (t ≤ netVal N e node ∧ e.intermediate_out.getD node 0 ≠ 1 ∧
        updateNode N t e node =
          ({ e with intermediate_out := e.intermediate_out.set node 1 }, true)) ∨
      (¬ t ≤ netVal N e node ∧ e.intermediate_out.getD node 0 ≠ 0 ∧
        updateNode N t e node =
          ({ e with intermediate_out := e.intermediate_out.set node 0 }, true)) := by
  by_cases hv : t ≤ netVal N e node
  · by_cases hc : e.intermediate_out.getD node 0 = 1
    · refine Or.inl ⟨?_, fun _ => hc, fun hcon => absurd hv hcon⟩
      unfold updateNode
      dsimp only
      rw [if_pos hv, if_neg (not_not_intro hc)]
    · refine Or.inr (Or.inl ⟨hv, hc, ?_⟩)
      unfold updateNode
      dsimp only
      rw [if_pos hv, if_pos hc]
  · by_cases hc : e.intermediate_out.getD node 0 = 0
    · refine Or.inl ⟨?_, fun hcon => absurd hcon hv, fun _ => hc⟩
      unfold updateNode
      dsimp only
      rw [if_neg hv, if_neg (not_not_intro hc)]
    · refine Or.inr (Or.inr ⟨hv, hc, ?_⟩)
      unfold updateNode
      dsimp only
      rw [if_neg hv, if_pos hc]

theorem updateNode_unchanged (N : ℕ) (t : ℤ) (e : Env) (node : ℕ)
    (h : (updateNode N t e node).2 = false) : (updateNode N t e node).1 = e := by
  rcases updateNode_cases N t e node with ⟨hh, _, _⟩ | ⟨_, _, hh⟩ | ⟨_, _, hh⟩ <;>
    rw [hh] at h ⊢ <;> simp at h

theorem updateNode_goodEnv (N : ℕ) (t : ℤ) (e : Env) (node : ℕ)
    (hg : goodEnv N e) : goodEnv N (updateNode N t e node).1 := by
  obtain ⟨hb, hlen, hsym, hdiag⟩ := hg
  have hfr := updateNode_frame N t e node
  refine ⟨?_, ?_, ?_, ?_⟩
  · rcases updateNode_cases N t e node with ⟨hh, _, _⟩ | ⟨_, _, hh⟩ | ⟨_, _, hh⟩ <;> rw [hh]
    · exact hb
    · intro x hx
      rcases List.mem_or_eq_of_mem_set hx with hx' | hx'
      · exact hb x hx'
      · exact Or.inr hx'
    · intro x hx
      rcases List.mem_or_eq_of_mem_set hx with hx' | hx'
      · exact hb x hx'
      · exact Or.inl hx'
  · rcases updateNode_cases N t e node with ⟨hh, _, _⟩ | ⟨_, _, hh⟩ | ⟨_, _, hh⟩ <;> rw [hh]
    · exact hlen
    · simpa using hlen
    · simpa using hlen
  · rw [hfr.1]
    exact hsym
  · rw [hfr.1]
    exact hdiag

theorem updateNode_mu_decrease (N : ℕ) (t : ℤ) (e : Env) (node : ℕ)
    (hg : goodEnv N e) (hnode : node < N)
    (hch : (updateNode N t e node).2 = true) :
    muEnv N t (updateNode N t e node).1 ≤ muEnv N t e - 1 := by
  obtain ⟨hb, hlen, hsym, hdiag⟩ := hg
  have hmem : node ∈ Finset.range N := Finset.mem_range.mpr hnode
  have hdn := hdiag node hmem
  have hnl : node < e.intermediate_out.length := by rw [hlen]; exact hnode
  have hnet := netVal_eq N e node
  rcases updateNode_cases N t e node with ⟨hh, _, _⟩ | ⟨hv, hc, hh⟩ | ⟨hv, hc, hh⟩
  · rw [hh] at hch
    simp at hch
  · -- node switches on: old value 0, new value 1, net input ≥ threshold
    have hs : vecFun e.intermediate_out node = 0 := by
      rcases vecFun_binary e.intermediate_out hb node with h0 | h1
      · exact h0
      · exact absurd h1 hc
    rw [hh]
    unfold muEnv
    dsimp only
    rw [vecFun_set _ _ _ hnl,
      mu_update e.weight_matrix N t (vecFun e.input_vector) node hnode hsym hdn
        (vecFun e.intermediate_out) 1, hs]
    rw [hnet] at hv
    linarith
  · -- node switches off: old value 1, new value 0, net input < threshold
    have hs : vecFun e.intermediate_out node = 1 := by
      rcases vecFun_binary e.intermediate_out hb node with h0 | h1
      · exact absurd h0 hc
      · exact h1
    rw [hh]
    unfold muEnv
    dsimp only
    rw [vecFun_set _ _ _ hnl,
      mu_update e.weight_matrix N t (vecFun e.input_vector) node hnode hsym hdn
        (vecFun e.intermediate_out) 0, hs]
    rw [hnet] at hv
    have hv' : vecFun e.input_vector node +
        (∑ k in Finset.range N,
          wEntry e.weight_matrix node k * vecFun e.intermediate_out k) ≤ t - 1 := by
      omega
    linarith

theorem foldl_passStep_mu (N : ℕ) (t : ℤ) (order : List ℕ)
    (horder : ∀ i ∈ order, i < N) (p : Env × Bool) (hg : goodEnv N p.1) :
    goodEnv N (order.foldl (passStep N t) p).1 ∧
      muEnv N t (order.foldl (passStep N t) p).1 ≤ muEnv N t p.1 ∧
      ((order.foldl (passStep N t) p).2 = true → p.2 = false →
        muEnv N t (order.foldl (passStep N t) p).1 ≤ muEnv N t p.1 - 1) := by
  induction order generalizing p with
  | nil =>
    refine ⟨hg, le_refl _, fun hq hp => ?_⟩
    rw [List.foldl_nil, hp] at hq
    exact absurd hq (by simp)
  | cons node rest ih =>
    have hnode : node < N := horder node (List.mem_cons_self node rest)
    have htail : ∀ i ∈ rest, i < N := fun i hi => horder i (List.mem_cons_of_mem node hi)
    rw [List.foldl_cons]
    rcases hr : (updateNode N t p.1 node).2 with hfalse | htrue
    · -- this node did not change: the environment is untouched
      have heq : (updateNode N t p.1 node).1 = p.1 := updateNode_unchanged N t p.1 node hr
      have hstep : passStep N t p node = (p.1, p.2) := by
        unfold passStep
        dsimp only
        rw [heq, hr, Bool.or_false]
      rw [hstep]
      exact ih htail (p.1, p.2) hg
    · -- this node changed: `mu` strictly decreases and the flag is raised
      have hdec := updateNode_mu_decrease N t p.1 node hg hnode hr
      have hgood := updateNode_goodEnv N t p.1 node hg
      have hstep : passStep N t p node = ((updateNode N t p.1 node).1, true) := by
        unfold passStep
        dsimp only
        rw [hr, Bool.or_true]
      rw [hstep]
      obtain ⟨hg', hle', _⟩ := ih htail ((updateNode N t p.1 node).1, true) hgood
      exact ⟨hg', le_trans hle' (by linarith), fun _ _ => le_trans hle' hdec⟩

theorem runPass_mu (N : ℕ) (t : ℤ) (order : List ℕ) (e : Env)
    (horder : ∀ i ∈ order, i < N) (hg : goodEnv N e) :
    goodEnv N (runPass N t order e).1 ∧
      muEnv N t (runPass N t order e).1 ≤ muEnv N t e ∧
      ((runPass N t order e).2 = true →
        muEnv N t (runPass N t order e).1 ≤ muEnv N t e - 1) := by
  have h := foldl_passStep_mu N t order horder (e, false) hg
  exact ⟨h.1, h.2.1, fun hq => h.2.2 hq rfl⟩

theorem mu_lower_bound (N : ℕ) (t : ℤ) (W : List (List ℤ)) (c : ℕ → ℤ) (s : ℕ → ℤ)
    (hs : ∀ i ∈ Finset.range N, s i = 0 ∨ s i = 1) :
    muBound N t W c ≤ mu N t W c s := by
  have hq : quadSum W N s ≤ ∑ i in Finset.range N, ∑ j in Finset.range N, |wEntry W i j| := by
    unfold quadSum
    refine Finset.sum_le_sum (fun i hi => Finset.sum_le_sum (fun j hj => ?_))
    rcases hs i hi with h0 | h1 <;> rcases hs j hj with g0 | g1
    · rw [h0, g0]; simp
    · rw [h0, g1]; simp
    · rw [h1, g0]; simp
    · rw [h1, g1]; simpa using le_abs_self (wEntry W i j)
  have hcs : (∑ i in Finset.range N, c i * s i) ≤ ∑ i in Finset.range N, |c i| := by
    refine Finset.sum_le_sum (fun i hi => ?_)
    rcases hs i hi with h0 | h1
    · rw [h0]; simp
    · rw [h1]; simpa using le_abs_self (c i)
  have hsum0 : 0 ≤ ∑ i in Finset.range N, s i := by
    refine Finset.sum_nonneg (fun i hi => ?_)
    rcases hs i hi with h0 | h0 <;> simp [h0]
  have hsumN : (∑ i in Finset.range N, s i) ≤ N := by
    calc (∑ i in Finset.range N, s i) ≤ ∑ _i in Finset.range N, (1 : ℤ) := by
          refine Finset.sum_le_sum (fun i hi => ?_)
          rcases hs i hi with h0 | h0 <;> simp [h0]
      _ = N := by simp
  have ht : -(2 * |t| * N) ≤ 2 * t * ∑ i in Finset.range N, s i := by
    rcases le_or_lt 0 t with htp | htn
    · rw [abs_of_nonneg htp]
      have h1 : 0 ≤ t * ∑ i in Finset.range N, s i := mul_nonneg htp hsum0
      have h2 : 0 ≤ t * N := mul_nonneg htp (by positivity)
      linarith
    · rw [abs_of_neg htn]
      have h1 : 0 ≤ (-t) * ((N : ℤ) - ∑ i in Finset.range N, s i) :=
        mul_nonneg (by linarith) (by linarith)
      nlinarith
  unfold mu energy muBound
  linarith

theorem muEnv_lower_bound (N : ℕ) (t : ℤ) (e : Env)
    (hb : isBinary e.intermediate_out) :
    muBound N t e.weight_matrix (vecFun e.input_vector) ≤ muEnv N t e :=
  mu_lower_bound N t _ _ _ (fun i _ => vecFun_binary _ hb i)

theorem updateLoop_zero (N : ℕ) (t : ℤ) (orders : ℕ → List ℕ) (k : ℕ) (e : Env) :
    updateLoop N t orders 0 k e = (none, e) := rfl

theorem updateLoop_succ (N : ℕ) (t : ℤ) (orders : ℕ → List ℕ) (fuel k : ℕ) (e : Env) :
    updateLoop N t orders (fuel + 1) k e =
      if (runPass N t (orders k) e).2 then
        updateLoop N t orders fuel (k + 1) (runPass N t (orders k) e).1
      else (some (runPass N t (orders k) e).1.intermediate_out,
        (runPass N t (orders k) e).1) := rfl

/-- Fuel `(muEnv − muBound).toNat + 1` always suffices: each changing pass
strictly decreases `muEnv`, which is bounded below by `muBound`. -/
theorem updateLoop_isSome (N : ℕ) (t : ℤ) (orders : ℕ → List ℕ)
    (horders : ∀ k, ∀ i ∈ orders k, i < N) :
    ∀ (fuel k : ℕ) (e : Env), goodEnv N e →
      (muEnv N t e - muBound N t e.weight_matrix (vecFun e.input_vector)).toNat < fuel →
      ((updateLoop N t orders fuel k e).1).isSome = true := by
  intro fuel
  induction fuel with
  | zero => exact fun k e _ hlt => absurd hlt (Nat.not_lt_zero _)
  | succ f ih =>
    intro k e hg hlt
    rw [updateLoop_succ]
    rcases hch : (runPass N t (orders k) e).2 with hfalse | htrue
    · simp
    · rw [if_pos rfl]
      have hpass := runPass_mu N t (orders k) e (horders k) hg
      have hWeq := (runPass_frame N t (orders k) e).1
      have hCeq := (runPass_frame N t (orders k) e).2
      apply ih (k + 1) _ hpass.1
      have hmu := hpass.2.2 hch
      have hlow := muEnv_lower_bound N t (runPass N t (orders k) e).1 hpass.1.1
      rw [hWeq, hCeq] at hlow ⊢
      omega

/-- C4: for every network size `N`, every binary cue of length `N`, and
every sequence of per-pass shuffle orders (each a permutation of
`range N`, as `shuffle` produces), the relaxation loop of `update_net`
terminates after finitely many passes whenever the weight matrix is
symmetric with zero diagonal: some finite fuel makes the loop return. -/
theorem claim_C4_recall_terminates (N : ℕ) (t : ℤ) (W : List (List ℤ))
    (cue : List ℤ) (orders : ℕ → List ℕ)
    (hsym : ∀ i ∈ Finset.range N, ∀ j ∈ Finset.range N, wEntry W i j = wEntry W j i)
    (hdiag : ∀ i ∈ Finset.range N, wEntry W i i = 0)
    (hcue : isBinary cue) (hlen : cue.length = N)
    (horders : ∀ k, (orders k).Perm (List.range N)) :
    ∃ fuel, (((Hopfield.mk N t W).update_net cue orders fuel).1).isSome = true := by
  have horders' : ∀ k, ∀ i ∈ orders k, i < N := by
    intro k i hi
    have : i ∈ List.range N := (horders k).mem_iff.mp hi
    simpa using this
  refine ⟨(muEnv N t ⟨W, cue, cue⟩ - muBound N t W (vecFun cue)).toNat + 1, ?_⟩
  exact updateLoop_isSome N t orders horders'
    ((muEnv N t ⟨W, cue, cue⟩ - muBound N t W (vecFun cue)).toNat + 1) 0
    ⟨W, cue, cue⟩ ⟨hcue, hlen, hsym, hdiag⟩ (Nat.lt_succ_self _)

/-- Witness for C4: the 2-node net trained on `[1,0]` (symmetric, zero
diagonal), cue `[0,0]`, identity shuffle on every pass. -/
theorem claim_C4_witness :
    ∃ fuel, (((Hopfield.mk 2 0 [[0, -1], [-1, 0]]).update_net [0, 0]
      (fun _ => [0, 1]) fuel).1).isSome = true :=
  claim_C4_recall_terminates 2 0 [[0, -1], [-1, 0]] [0, 0] (fun _ => [0, 1])
    (by decide) (by decide) (by decide) (by decide)
    (fun k => by show List.Perm [0, 1] (List.range 2); decide)

/-! ## The trained pattern is a fixed point of the relaxation (when it has a
one-entry) -/

theorem getD_binary (P : List ℤ) (hb : isBinary P) (i : ℕ) :
    P.getD i 0 = 0 ∨ P.getD i 0 = 1 := vecFun_binary P hb i

theorem sum_getD_ge_one (N : ℕ) (P : List ℤ) (hb : isBinary P)
    (hlen : P.length = N) (hone : (1 : ℤ) ∈ P) :
    1 ≤ ∑ j in Finset.range N, P.getD j 0 := by
  obtain ⟨i0, hi0, hPi⟩ := List.getElem_of_mem hone
  have hmem : i0 ∈ Finset.range N := Finset.mem_range.mpr (hlen ▸ hi0)
  have hval : P.getD i0 0 = 1 := by rw [List.getD_eq_getElem _ _ hi0, hPi]
  have hle : P.getD i0 0 ≤ ∑ j in Finset.range N, P.getD j 0 :=
    Finset.single_le_sum
      (fun j _ => by
        show (0 : ℤ) ≤ P.getD j 0
        rcases getD_binary P hb j with h | h
        · rw [h]
        · rw [h]
          norm_num)
      hmem
  rw [hval] at hle
  exact hle

theorem netVal_trained (N : ℕ) (P : List ℤ) (hb : isBinary P)
    (node : ℕ) (hnode : node < N) :
    netVal N ⟨((Hopfield.mk N 0 (zeroMatrix N)).train_net P).weight_matrix, P, P⟩ node
      = P.getD node 0 + (2 * P.getD node 0 - 1) *
          ((∑ j in Finset.range N, P.getD j 0) - P.getD node 0) := by
  unfold netVal
  dsimp only
  rw [listSum_eq_finsetSum]
  have hstep : ∀ k ∈ Finset.range N,
      wEntry ((Hopfield.mk N 0 (zeroMatrix N)).train_net P).weight_matrix node k *
          P.getD k 0
        = (2 * P.getD node 0 - 1) * P.getD k 0
          - (if k = node then (2 * P.getD node 0 - 1) * P.getD k 0 else 0) := by
    intro k hk
    rw [wEntry_train _ _ _ _ hnode (Finset.mem_range.mp hk)]
    rcases eq_or_ne k node with rfl | hne
    · simp
    · rw [if_neg (Ne.symm hne), if_neg hne, one_mul]
      rcases getD_binary P hb k with h0 | h1
      · rw [h0]; ring
      · rw [h1]; ring
  rw [Finset.sum_congr rfl hstep, Finset.sum_sub_distrib,
    Finset.sum_ite_eq' (Finset.range N) node
      (fun k => (2 * P.getD node 0 - 1) * P.getD k 0),
    if_pos (Finset.mem_range.mpr hnode), mul_sub, Finset.mul_sum]

theorem trained_fixed_updateNode (N : ℕ) (P : List ℤ)
    (hb : isBinary P) (hlen : P.length = N) (hone : (1 : ℤ) ∈ P)
    (node : ℕ) (hnode : node < N) :
    updateNode N 0 ⟨((Hopfield.mk N 0 (zeroMatrix N)).train_net P).weight_matrix, P, P⟩ node
      = (⟨((Hopfield.mk N 0 (zeroMatrix N)).train_net P).weight_matrix, P, P⟩, false) := by
  have hnet := netVal_trained N P hb node hnode
  have hK := sum_getD_ge_one N P hb hlen hone
  rcases updateNode_cases N 0
      ⟨((Hopfield.mk N 0 (zeroMatrix N)).train_net P).weight_matrix, P, P⟩ node with
    ⟨hh, _, _⟩ | ⟨hv, hc, hh⟩ | ⟨hv, hc, hh⟩
  · exact hh
  · exfalso
    rcases getD_binary P hb node with h0 | h1
    · rw [hnet, h0] at hv
      linarith
    · exact hc h1
  · exfalso
    rcases getD_binary P hb node with h0 | h1
    · exact hc h0
    · apply hv
      rw [hnet, h1]
      linarith

theorem foldl_passStep_fixed (N : ℕ) (t : ℤ) (e : Env)
    (hfix : ∀ node, node < N → updateNode N t e node = (e, false)) :
    ∀ (order : List ℕ), (∀ i ∈ order, i < N) →
      order.foldl (passStep N t) (e, false) = (e, false) := by
  intro order
  induction order with
  | nil => intro _; rfl
  | cons node rest ih =>
    intro horder
    rw [List.foldl_cons]
    have hstep : passStep N t (e, false) node = (e, false) := by
      unfold passStep
      dsimp only
      rw [hfix node (horder node (List.mem_cons_self node rest))]
      rfl
    rw [hstep]
    exact ih (fun i hi => horder i (List.mem_cons_of_mem node hi))

/-- C5 (amended): for every binary pattern `P` of length `N` containing at
least one `1`-entry, training a fresh default-threshold store on `P` and then
calling `update_net` with cue `P` returns exactly `P` unchanged, for every
sequence of shuffle orders — the first pass already changes nothing. -/
theorem claim_C5_amended_fixed_point (N : ℕ) (P : List ℤ)
    (orders : ℕ → List ℕ) (fuel : ℕ)
    (hb : isBinary P) (hlen : P.length = N) (hone : (1 : ℤ) ∈ P)
    (horders : ∀ k, (orders k).Perm (List.range N)) (hfuel : 1 ≤ fuel) :
    (((Hopfield.mk N 0 (zeroMatrix N)).train_net P).update_net P orders fuel).1
      = some P := by
  obtain ⟨f, rfl⟩ : ∃ f, fuel = f + 1 := ⟨fuel - 1, by omega⟩
  have horder0 : ∀ i ∈ orders 0, i < N := by
    intro i hi
    have : i ∈ List.range N := ((horders 0).mem_iff).mp hi
    simpa using this
  have hpass : runPass N 0 (orders 0)
      ⟨((Hopfield.mk N 0 (zeroMatrix N)).train_net P).weight_matrix, P, P⟩
      = (⟨((Hopfield.mk N 0 (zeroMatrix N)).train_net P).weight_matrix, P, P⟩, false) :=
    foldl_passStep_fixed N 0 _
      (trained_fixed_updateNode N P hb hlen hone) (orders 0) horder0
  show (updateLoop N 0 orders (f + 1) 0
      ⟨((Hopfield.mk N 0 (zeroMatrix N)).train_net P).weight_matrix, P, P⟩).1 = some P
  rw [updateLoop_succ, hpass]
  simp

/-- Witness for C5 amended: the repository's own example, pattern
`[1,1,1,0]` on a size-4 net, identity shuffle, one pass. -/
theorem claim_C5_witness :
    (((Hopfield.mk 4 0 (zeroMatrix 4)).train_net [1, 1, 1, 0]).update_net [1, 1, 1, 0]
        (fun _ => [0, 1, 2, 3]) 1).1 = some [1, 1, 1, 0] :=
  claim_C5_amended_fixed_point 4 [1, 1, 1, 0] (fun _ => [0, 1, 2, 3]) 1
    (by decide) (by decide) (by decide)
    (fun k => by show List.Perm [0, 1, 2, 3] (List.range 4); decide) (by decide)

end HopfieldNet
